import Mathlib

/-!
# Verification of the Welford online-variance accumulator (`welford.py`)

Shallow embedding of the single class `Welford` from `src/welford.py`.
Arithmetic is modelled exactly over `ℚ` (the Python code uses floats; the
algebraic claims are settled over exact arithmetic, as the spec allows).
Python's `ZeroDivisionError` — raised when a `float / int` division has an
integer zero denominator, as happens in `merge` when both accumulators are
empty — is modelled by `Option`: `none` is a raised exception.  The
floating-point NaN sentinel returned by `var`/`varp` at degenerate counts is
a *returned value*, not an exception; it is modelled by `Option ℚ` as well,
with `none` standing for NaN, in the separate query functions.
-/

/-- The accumulator state: the three private fields `__count`, `__m1`
(running mean) and `__m2` (running sum of squared deviations) set up in
`Welford.__init__` (src/welford.py lines 23-25). -/
@[ext]
structure Welford where
  count : ℕ
  m1 : ℚ
  m2 : ℚ
deriving DecidableEq, Repr

namespace Welford

/-- The freshly constructed empty accumulator: `count=0, __m1=0.0, __m2=0.0`
(src/welford.py lines 23-25). -/
def init0 : Welford := ⟨0, 0, 0⟩

/-- The `mean` property (line 49): returns `__m1`. -/
def mean (w : Welford) : ℚ := w.m1

/-- The `acc` property (line 39): the raw `(count, mean, m2)` triple. -/
def acc (w : Welford) : ℕ × ℚ × ℚ := (w.count, w.m1, w.m2)

/-- The `var` property (lines 52-57): sample variance; `none` models the
`float('nan')` returned when `__count < 2`. -/
def var (w : Welford) : Option ℚ :=
  if w.count < 2 then none else some (w.m2 / ((w.count : ℚ) - 1))

/-- The `varp` property (lines 59-65): population variance; `none` models the
`float('nan')` returned when `__count < 2` (note: the guard in the source is
`< 2`, identical to the one in `var`). -/
def varp (w : Welford) : Option ℚ :=
  if w.count < 2 then none else some (w.m2 / (w.count : ℚ))

/-- The scalar branch of `add` (lines 81-85): Welford's recurrence. -/
def addScalar (w : Welford) (elem : ℚ) : Welford :=
  let count := w.count + 1
  let delta := elem - w.m1
  let m1 := w.m1 + delta / (count : ℚ)
  let m2 := w.m2 + delta * (elem - m1)
  ⟨count, m1, m2⟩

/-- The `merge` method (lines 94-104).  `count` is a Python int; when it is
`0` the division `(... ) / count` on line 99 raises `ZeroDivisionError`,
modelled as `none`.  Otherwise `self` is replaced by the combined state. -/
def merge (w other : Welford) : Option Welford :=
  let count := w.count + other.count
  if count = 0 then none
  else
    let delta := w.m1 - other.m1
    let delta2 := delta * delta
    let m1 := ((w.count : ℚ) * w.m1 + (other.count : ℚ) * other.m1) / (count : ℚ)
    let m2 := w.m2 + other.m2 + delta2 * ((w.count : ℚ) * (other.count : ℚ)) / (count : ℚ)
    some ⟨count, m1, m2⟩

/-- The argument of `add` (line 77): a scalar, or — checked by
`isinstance(elem, Welford)` on line 79 — an accumulator instance. -/
inductive Elem where
  | scalar (x : ℚ)
  | accum (w : Welford)
deriving DecidableEq

/-- The `add` method (lines 77-86): dispatches an accumulator argument to
`merge`, otherwise runs the scalar recurrence.  `none` models a propagated
exception (only possible through `merge`). -/
def add (w : Welford) (elem : Elem) : Option Welford :=
  match elem with
  | .accum o => w.merge o
  | .scalar x => some (w.addScalar x)

/-- The `add_all` method (lines 88-92): calls `add` once per element in
order, propagating any exception. -/
def addAll (w : Welford) (xs : List Elem) : Option Welford :=
  xs.foldlM add w

/-- Sequential `add` calls on a list of scalars (the scalar-only use of
`add_all` / repeated `add`); total, since the scalar branch never raises. -/
def addAllS (w : Welford) (xs : List ℚ) : Welford :=
  xs.foldl addScalar w

/-- The `merge` method viewed on the joint state `(self, other)`: the body
(lines 96-104) reads both objects but its three assignments (lines 101-103)
all target fields of `self`; no statement writes to `other`. -/
def mergeState (s : Welford × Welford) : Option (Welford × Welford) :=
  let count := s.1.count + s.2.count
  if count = 0 then none
  else
    let delta := s.1.m1 - s.2.m1
    let delta2 := delta * delta
    let m1 := ((s.1.count : ℚ) * s.1.m1 + (s.2.count : ℚ) * s.2.m1) / (count : ℚ)
    let m2 := s.1.m2 + s.2.m2 + delta2 * ((s.1.count : ℚ) * (s.2.count : ℚ)) / (count : ℚ)
    some (⟨count, m1, m2⟩, s.2)

/-- The argument of the constructor `__init__` (line 21): `None`, an
iterable (of scalars), or a non-iterable value — a scalar or a `Welford`
instance (which defines no `__iter__`, hence fails the
`isinstance(data, Iterable)` check on line 27). -/
inductive InitData where
  | noneD
  | iterable (xs : List ℚ)
  | scalar (x : ℚ)
  | accum (w : Welford)
deriving DecidableEq

/-- The constructor `__init__` (lines 21-30): zero-initialises the fields,
then dispatches `data` to `add_all` (iterables) or `add` (anything else,
including `Welford` instances). -/
def initW (data : InitData) : Option Welford :=
  match data with
  | .noneD => some init0
  | .iterable xs => addAll init0 (xs.map .scalar)
  | .scalar x => add init0 (.scalar x)
  | .accum w => add init0 (.accum w)

end Welford

/-! ## Textbook two-pass statistics of a list (from the spec's words) -/

/-- Modelled from the spec: the arithmetic mean of a list
(first pass of the textbook two-pass algorithm). -/
def listMean (xs : List ℚ) : ℚ := xs.sum / (xs.length : ℚ)

/-- Modelled from the spec: the sum of squared deviations from the mean
(second pass of the textbook two-pass algorithm). -/
def listM2 (xs : List ℚ) : ℚ :=
  (xs.map (fun x => (x - listMean xs) ^ 2)).sum

/-- Modelled from the spec: the textbook two-pass sample variance,
`(Σ (x - mean)²) / (n - 1)`. -/
def twoPassVar (xs : List ℚ) : ℚ := listM2 xs / ((xs.length : ℚ) - 1)

/-- Sum of squares of a list. -/
def sumSq (xs : List ℚ) : ℚ := (xs.map (fun x => x ^ 2)).sum

/-- The canonical accumulator state for a list of observations: count is the
length, `m1` the mean (the `0/0 = 0` convention of `ℚ` matches the neutral
initial value at `count = 0`), and `m2` the moment form `Σx² - (Σx)²/n` of
the sum of squared deviations. -/
def stateOf (xs : List ℚ) : Welford :=
  ⟨xs.length, xs.sum / (xs.length : ℚ), sumSq xs - xs.sum ^ 2 / (xs.length : ℚ)⟩

lemma stateOf_nil : stateOf [] = Welford.init0 := by
  simp [stateOf, Welford.init0, sumSq]

lemma stateOf_count (xs : List ℚ) : (stateOf xs).count = xs.length := rfl

lemma length_cast_ne_zero {xs : List ℚ} (h : xs ≠ []) : (xs.length : ℚ) ≠ 0 := by
  exact_mod_cast fun h0 => h (List.length_eq_zero.mp (by exact_mod_cast h0))

/-- One step of the Welford recurrence takes the canonical state of `xs` to
the canonical state of `xs ++ [x]`. -/
lemma addScalar_stateOf (xs : List ℚ) (x : ℚ) :
    (stateOf xs).addScalar x = stateOf (xs ++ [x]) := by
  rcases eq_or_ne xs [] with rfl | hne
  · refine Welford.ext rfl ?_ ?_ <;>
      simp [stateOf, Welford.addScalar, sumSq]
  · have hn : (xs.length : ℚ) ≠ 0 := length_cast_ne_zero hne
    have hn1 : (xs.length : ℚ) + 1 ≠ 0 := by positivity
    refine Welford.ext (by simp [stateOf, Welford.addScalar]) ?_ ?_ <;>
      simp only [stateOf, Welford.addScalar, List.length_append, List.sum_append,
        List.length_singleton, List.sum_singleton, sumSq, List.map_append,
        List.map_singleton] <;>
      push_cast <;> field_simp <;> ring

/-- Folding scalars with repeated `add` from the canonical state of `xs`
yields the canonical state of `xs ++ ys`. -/
lemma addAllS_stateOf (ys xs : List ℚ) :
    (stateOf xs).addAllS ys = stateOf (xs ++ ys) := by
  induction ys generalizing xs with
  | nil => simp [Welford.addAllS]
  | cons y ys ih =>
      have h1 : (stateOf xs).addAllS (y :: ys) =
          ((stateOf xs).addScalar y).addAllS ys := rfl
      rw [h1, addScalar_stateOf, ih, List.append_assoc]
      rfl

/-- Folding a list of scalars into a fresh accumulator reaches the
canonical state. -/
lemma addAllS_init0 (xs : List ℚ) :
    Welford.init0.addAllS xs = stateOf xs := by
  have := addAllS_stateOf xs []
  rwa [stateOf_nil, List.nil_append] at this

/-- Merging with a fresh empty accumulator on the right is the identity. -/
lemma merge_init0_right (a : Welford) (ha : a.count ≠ 0) :
    a.merge Welford.init0 = some a := by
  have hn : ((a.count : ℚ)) ≠ 0 := Nat.cast_ne_zero.mpr ha
  simp only [Welford.merge, Welford.init0, Nat.add_zero, Nat.cast_zero]
  rw [if_neg ha]
  congr 1
  refine Welford.ext rfl ?_ ?_
  · show ((a.count : ℚ) * a.m1 + 0 * 0) / (a.count : ℚ) = a.m1
    field_simp
  · show a.m2 + 0 + (a.m1 - 0) * (a.m1 - 0) * ((a.count : ℚ) * 0) / (a.count : ℚ) = a.m2
    simp

/-- Merging with a fresh empty accumulator on the left copies the other
accumulator's state. -/
lemma merge_init0_left (b : Welford) (hb : b.count ≠ 0) :
    Welford.init0.merge b = some b := by
  have hn : ((b.count : ℚ)) ≠ 0 := Nat.cast_ne_zero.mpr hb
  simp only [Welford.merge, Welford.init0, Nat.zero_add, Nat.cast_zero]
  rw [if_neg hb]
  congr 1
  refine Welford.ext rfl ?_ ?_
  · show (0 * 0 + (b.count : ℚ) * b.m1) / (b.count : ℚ) = b.m1
    field_simp
  · show 0 + b.m2 + (0 - b.m1) * (0 - b.m1) * (0 * (b.count : ℚ)) / (b.count : ℚ) = b.m2
    simp

/-- The Chan et al. combination step: merging the canonical states of two
lists yields the canonical state of their concatenation (exactly, over
exact arithmetic), provided the combined count is nonzero. -/
lemma merge_stateOf (A B : List ℚ) (h : A ++ B ≠ []) :
    (stateOf A).merge (stateOf B) = some (stateOf (A ++ B)) := by
  rcases eq_or_ne A [] with rfl | hA
  · have hB : B ≠ [] := by simpa using h
    have hBc : (stateOf B).count ≠ 0 := by
      rw [stateOf_count]
      exact fun h0 => hB (List.length_eq_zero.mp h0)
    rw [stateOf_nil, List.nil_append]
    exact merge_init0_left _ hBc
  · rcases eq_or_ne B [] with rfl | hB
    · have hAc : (stateOf A).count ≠ 0 := by
        rw [stateOf_count]
        exact fun h0 => hA (List.length_eq_zero.mp h0)
      rw [stateOf_nil, List.append_nil]
      exact merge_init0_right _ hAc
    · have hn : (A.length : ℚ) ≠ 0 := length_cast_ne_zero hA
      have hm : (B.length : ℚ) ≠ 0 := length_cast_ne_zero hB
      have hnm : (A.length : ℚ) + (B.length : ℚ) ≠ 0 := by positivity
      have hcount : A.length + B.length ≠ 0 := fun h0 =>
        hA (List.length_eq_zero.mp (Nat.eq_zero_of_add_eq_zero_right h0))
      simp only [Welford.merge, stateOf, List.length_append, List.sum_append,
        sumSq, List.map_append]
      rw [if_neg hcount]
      congr 1
      refine Welford.ext rfl ?_ ?_
      · push_cast
        field_simp
      · push_cast
        field_simp
        ring

/-- Swapping the two halves of a concatenation does not change the
canonical state: length, sum and sum of squares are all symmetric. -/
lemma stateOf_append_comm (A B : List ℚ) :
    stateOf (A ++ B) = stateOf (B ++ A) := by
  have h1 : (A ++ B).length = (B ++ A).length := by
    simp [Nat.add_comm]
  have h2 : (A ++ B).sum = (B ++ A).sum := by
    simp [add_comm]
  have h3 : sumSq (A ++ B) = sumSq (B ++ A) := by
    simp [sumSq, add_comm]
  simp [stateOf, h1, h2, h3]

/-- Expansion of the sum of squared deviations about an arbitrary centre. -/
lemma sum_sq_sub (xs : List ℚ) (c : ℚ) :
    (xs.map (fun x => (x - c) ^ 2)).sum
      = sumSq xs - 2 * c * xs.sum + (xs.length : ℚ) * c ^ 2 := by
  induction xs with
  | nil => simp [sumSq]
  | cons a l ih =>
      simp only [List.map_cons, List.sum_cons, List.length_cons]
      rw [ih]
      simp only [sumSq, List.map_cons, List.sum_cons]
      push_cast
      ring

/-- The moment form of `m2` agrees with the two-pass sum of squared
deviations for a nonempty list. -/
lemma listM2_eq (xs : List ℚ) (h : xs ≠ []) :
    listM2 xs = sumSq xs - xs.sum ^ 2 / (xs.length : ℚ) := by
  have hn : (xs.length : ℚ) ≠ 0 := length_cast_ne_zero h
  unfold listM2 listMean
  rw [sum_sq_sub]
  field_simp
  ring

/-- `add_all` on scalar elements is the total scalar fold. -/
lemma addAll_scalars (w : Welford) (xs : List ℚ) :
    w.addAll (xs.map Welford.Elem.scalar) = some (w.addAllS xs) := by
  induction xs generalizing w with
  | nil => rfl
  | cons a l ih =>
      simpa [Welford.addAll, Welford.addAllS, Welford.add] using ih (w.addScalar a)

/-- `merge` raises (returns `none`) exactly when both accumulators are
empty. -/
lemma merge_eq_none_iff (s t : Welford) :
    s.merge t = none ↔ s.count + t.count = 0 := by
  simp only [Welford.merge]
  split <;> simp_all

/-- `var` returns NaN (`none`) exactly when `count < 2`. -/
lemma var_eq_none_iff (s : Welford) : s.var = none ↔ s.count < 2 := by
  simp only [Welford.var]
  split <;> simp_all

/-- `varp` returns NaN (`none`) exactly when `count < 2` (the source's
guard, not the spec's `count < 1`). -/
lemma varp_eq_none_iff (s : Welford) : s.varp = none ↔ s.count < 2 := by
  simp only [Welford.varp]
  split <;> simp_all

/-! ## Claims -/

/-- C1: for every accumulator state `(n, mean, m2)` and every scalar `x`,
`add(x)` replaces the state by exactly the Welford recurrence —
`n' = n + 1`, `delta = x - mean`, `mean' = mean + delta / n'`,
`m2' = m2 + delta * (x - mean')` with the *updated* mean in the last term —
and returns the accumulator itself (the new state, with no exception and no
other effect). -/
theorem add_scalar_welford_recurrence (w : Welford) (x : ℚ) :
    (w.addScalar x).count = w.count + 1 ∧
    (w.addScalar x).m1 = w.m1 + (x - w.m1) / ((w.count : ℚ) + 1) ∧
    (w.addScalar x).m2 =
      w.m2 + (x - w.m1) * (x - (w.m1 + (x - w.m1) / ((w.count : ℚ) + 1))) ∧
    w.add (.scalar x) = some (w.addScalar x) := by
  refine ⟨rfl, ?_, ?_, rfl⟩ <;>
    (simp only [Welford.addScalar]; push_cast; ring)

/-- C2: for accumulators `self = (n_a, mean_a, m2_a)` and
`other = (n_b, mean_b, m2_b)` with `n_a + n_b ≥ 1`, `merge(other)` sets the
receiver's state to exactly `n = n_a + n_b`,
`mean = (n_a·mean_a + n_b·mean_b)/n` and
`m2 = m2_a + m2_b + (mean_a - mean_b)²·(n_a·n_b)/n`, and returns it. -/
theorem merge_combination_formula (a b : Welford) (h : 1 ≤ a.count + b.count) :
    a.merge b = some
      ⟨a.count + b.count,
       ((a.count : ℚ) * a.m1 + (b.count : ℚ) * b.m1)
         / ((a.count : ℚ) + (b.count : ℚ)),
       a.m2 + b.m2 + (a.m1 - b.m1) ^ 2 * ((a.count : ℚ) * (b.count : ℚ))
         / ((a.count : ℚ) + (b.count : ℚ))⟩ := by
  have h0 : a.count + b.count ≠ 0 := by omega
  simp only [Welford.merge]
  rw [if_neg h0]
  congr 1
  refine Welford.ext rfl ?_ ?_
  · push_cast
    ring
  · push_cast
    ring

theorem merge_combination_formula_witness :
    1 ≤ (Welford.mk 1 2 3).count + (Welford.mk 2 1 5).count ∧
    (Welford.mk 1 2 3).merge (Welford.mk 2 1 5) = some ⟨3, 4/3, 26/3⟩ := by
  refine ⟨by decide, ?_⟩
  rw [merge_combination_formula (Welford.mk 1 2 3) (Welford.mk 2 1 5) (by decide)]
  norm_num [Welford.mk.injEq]

/-- C3 (code bug): for an accumulator holding exactly one observation the
mean equals that observation, `m2 = 0`, and sample variance is NaN, as
claimed — but the code's `varp` returns NaN at `count = 1` instead of the
claimed `0`: its guard (line 62) is `count < 2`, the same as `var`'s, even
though the population variance `m2 / count = 0 / 1 = 0` is well defined
there (last conjunct). -/
theorem varp_nan_at_count_one (x : ℚ) :
    (Welford.init0.addScalar x).count = 1 ∧
    (Welford.init0.addScalar x).mean = x ∧
    (Welford.init0.addScalar x).m2 = 0 ∧
    (Welford.init0.addScalar x).var = none ∧
    (Welford.init0.addScalar x).varp = none ∧
    (Welford.init0.addScalar x).m2 / ((Welford.init0.addScalar x).count : ℚ)
      = 0 := by
  refine ⟨rfl, ?_, ?_, rfl, rfl, ?_⟩ <;>
    simp [Welford.init0, Welford.addScalar, Welford.mean]

/-- C4: for every list of at least two values, the sample variance after
folding the list into a fresh accumulator by sequential `add` calls equals
the textbook two-pass sample variance, exactly over exact arithmetic. -/
theorem fold_var_eq_two_pass (xs : List ℚ) (h : 2 ≤ xs.length) :
    (Welford.init0.addAllS xs).var = some (twoPassVar xs) := by
  have hne : xs ≠ [] := by
    intro h0
    rw [h0] at h
    simp at h
  rw [addAllS_init0]
  have hcount : ¬ (stateOf xs).count < 2 := by
    rw [stateOf_count]
    omega
  rw [Welford.var, if_neg hcount]
  rw [twoPassVar, listM2_eq xs hne, stateOf_count]
  rfl

theorem fold_var_eq_two_pass_witness :
    2 ≤ ([2, 4, 4, 4, 5, 5, 7, 9] : List ℚ).length ∧
    (Welford.init0.addAllS [2, 4, 4, 4, 5, 5, 7, 9]).var
      = some (twoPassVar [2, 4, 4, 4, 5, 5, 7, 9]) :=
  ⟨by decide, fold_var_eq_two_pass [2, 4, 4, 4, 5, 5, 7, 9] (by decide)⟩

/-- C5: for every split `A ++ B` of a non-empty list, folding `A` and `B`
into separate fresh accumulators and merging yields exactly the state (hence
the same count, mean and sample variance) obtained by folding the whole list
into a single fresh accumulator — for either order of the two sublists. -/
theorem merge_split_exact (A B : List ℚ) (h : A ++ B ≠ []) :
    (Welford.init0.addAllS A).merge (Welford.init0.addAllS B)
      = some (Welford.init0.addAllS (A ++ B)) ∧
    (Welford.init0.addAllS B).merge (Welford.init0.addAllS A)
      = some (Welford.init0.addAllS (A ++ B)) := by
  have hBA : B ++ A ≠ [] := by
    intro h0
    rcases List.append_eq_nil.mp h0 with ⟨hB, hA⟩
    exact h (by rw [hA, hB]; rfl)
  constructor
  · rw [addAllS_init0, addAllS_init0, addAllS_init0]
    exact merge_stateOf A B h
  · rw [addAllS_init0, addAllS_init0, addAllS_init0]
    rw [merge_stateOf B A hBA, stateOf_append_comm]

theorem merge_split_exact_witness :
    ([1, 2] ++ [3] : List ℚ) ≠ [] ∧
    ((Welford.init0.addAllS [1, 2]).merge (Welford.init0.addAllS [3])
      = some (Welford.init0.addAllS ([1, 2] ++ [3])) ∧
    (Welford.init0.addAllS [3]).merge (Welford.init0.addAllS [1, 2])
      = some (Welford.init0.addAllS ([1, 2] ++ [3]))) :=
  ⟨by decide, merge_split_exact [1, 2] [3] (by decide)⟩

/-- C6: a fresh empty accumulator is a merge identity in either argument
position whenever the combined count is at least 1: the merge succeeds and
the resulting state (hence count, mean and var) is the other accumulator's,
unchanged. -/
theorem merge_empty_identity (w : Welford) (h : 1 ≤ w.count) :
    w.merge Welford.init0 = some w ∧ Welford.init0.merge w = some w :=
  ⟨merge_init0_right w (by omega), merge_init0_left w (by omega)⟩

theorem merge_empty_identity_witness :
    1 ≤ (Welford.mk 2 5 7).count ∧
    ((Welford.mk 2 5 7).merge Welford.init0 = some (Welford.mk 2 5 7) ∧
     Welford.init0.merge (Welford.mk 2 5 7) = some (Welford.mk 2 5 7)) :=
  ⟨by decide, merge_empty_identity (Welford.mk 2 5 7) (by decide)⟩

/-- C7 counterexample: merging two empty accumulators does *not* return a
NaN sentinel — the division `(...) / count` with the integer `count = 0`
on line 99 raises `ZeroDivisionError` (modelled as `none`), so the
operation fails instead of producing a value. -/
theorem merge_empty_empty_raises :
    Welford.merge Welford.init0 Welford.init0 = none := rfl

/-- C7 (amended): `add` on a scalar and `add_all` on scalars always return
the accumulator without raising, and the degenerate variance domains are
signalled by NaN — `var` and `varp` return NaN exactly at `count < 2` — but
`merge` raises `ZeroDivisionError` (returns `none`) exactly when both
accumulators are empty (combined count `0`), rather than returning NaN. -/
theorem error_signalling_amended (s t : Welford) (x : ℚ) (xs : List ℚ) :
    s.add (Welford.Elem.scalar x) = some (s.addScalar x) ∧
    s.addAll (xs.map Welford.Elem.scalar) = some (s.addAllS xs) ∧
    (s.merge t = none ↔ s.count + t.count = 0) ∧
    (s.var = none ↔ s.count < 2) ∧
    (s.varp = none ↔ s.count < 2) :=
  ⟨rfl, addAll_scalars s xs, merge_eq_none_iff s t,
    var_eq_none_iff s, varp_eq_none_iff s⟩

/-- C8: running `merge` on the joint state `(X, Y)` leaves the argument `Y`
(count, mean, m2, hence var) exactly as it was — only the receiver is
replaced, and by exactly the value `X.merge Y` computes. -/
theorem merge_frames_other (X Y r₁ r₂ : Welford)
    (h : Welford.mergeState (X, Y) = some (r₁, r₂)) :
    r₂ = Y ∧ X.merge Y = some r₁ := by
  by_cases h0 : X.count + Y.count = 0
  · simp [Welford.mergeState, h0] at h
  · simp only [Welford.mergeState, if_neg h0, Option.some.injEq,
      Prod.mk.injEq] at h
    refine ⟨h.2.symm, ?_⟩
    simp only [Welford.merge, if_neg h0, Option.some.injEq]
    exact h.1

theorem merge_frames_other_witness :
    Welford.mergeState (Welford.mk 1 2 3, Welford.mk 1 4 5)
      = some (Welford.mk 2 3 10, Welford.mk 1 4 5) ∧
    (Welford.mk 1 4 5 = Welford.mk 1 4 5 ∧
     (Welford.mk 1 2 3).merge (Welford.mk 1 4 5) = some (Welford.mk 2 3 10)) := by
  have hs : Welford.mergeState (Welford.mk 1 2 3, Welford.mk 1 4 5)
      = some (Welford.mk 2 3 10, Welford.mk 1 4 5) := by
    simp only [Welford.mergeState]
    norm_num [Welford.mk.injEq]
  exact ⟨hs, merge_frames_other _ _ _ _ hs⟩

/-- C9: `add` called with an accumulator argument runs exactly the `merge`
semantics on it (the `isinstance` dispatch on line 79), not the scalar
recurrence: the resulting state is `X.merge(W)`'s result. -/
theorem add_accum_dispatches_merge (s w : Welford) :
    s.add (Welford.Elem.accum w) = s.merge w := rfl

/-- C10 counterexample: seeding a constructor with an *empty* accumulator
does not copy its state — `Welford(W)` dispatches to `merge` on a fresh
empty receiver, and with `W.count = 0` the combined count is `0`, so the
construction raises `ZeroDivisionError` (modelled `none`) instead of
producing the claimed copy of `W`'s state. -/
theorem init_from_empty_accum_raises :
    Welford.initW (Welford.InitData.accum Welford.init0)
      ≠ some Welford.init0 := by
  intro h
  exact Option.noConfusion h

/-- C10 (amended): constructing `Welford(W)` from an accumulator `W`
dispatches through `add` to `merge` semantics (an accumulator is neither
iterable nor treated as a scalar); when `W.count ≥ 1` the new accumulator's
state equals `W`'s state exactly (and `W`, read only, is unmodified), while
for an empty `W` the construction raises `ZeroDivisionError`. -/
theorem init_from_accum_copies_state (w : Welford) (h : 1 ≤ w.count) :
    Welford.initW (Welford.InitData.accum w) = some w := by
  have : Welford.initW (Welford.InitData.accum w) = Welford.init0.merge w := rfl
  rw [this]
  exact merge_init0_left w (by omega)

theorem init_from_accum_copies_state_witness :
    1 ≤ (Welford.mk 2 3 4).count ∧
    Welford.initW (Welford.InitData.accum (Welford.mk 2 3 4))
      = some (Welford.mk 2 3 4) :=
  ⟨by decide, init_from_accum_copies_state (Welford.mk 2 3 4) (by decide)⟩
